import Mathlib

/-!
Verification of `create_cyclic_pattern` (src/create_cyclic_pattern.py).

The source is a single Python function generating fixed-length strings over a
character alphabet in mixed-radix odometer order.  We embed it shallowly:
strings become `List Char`, Python `int` arguments become `Int` (so the
non-positive validation branches are meaningful), and the `print` diagnostic
side channel becomes an explicit list of warning strings returned alongside
the pattern list.
-/

/-- The message printed by `print("Warning: input_charset cannot be empty.")`. -/
def emptyCharsetMsg : String := "Warning: input_charset cannot be empty."

/-- The message printed by `print("Warning: num_patterns must be a positive integer.")`. -/
def nonPositiveCountMsg : String := "Warning: num_patterns must be a positive integer."

/-- The message printed by `print("Warning: pattern_length must be a positive integer.")`. -/
def nonPositiveLengthMsg : String := "Warning: pattern_length must be a positive integer."

/-- The inner `for i in range(pattern_length - 1, -1, -1)` increment-with-carry
scan of the source, expressed on the digit list in least-significant-first
order (the Python list is most-significant-first, so the scan from the end of
the Python list is structural recursion on the reversed list): increment the
current digit; if it is still `< base` stop, otherwise reset it to `0` and
carry into the next digit.  Carry out of the last digit is discarded, as in
the source. -/
def incRev (base : Nat) : List Nat → List Nat
  | [] => []
  | d :: rest => if d + 1 < base then (d + 1) :: rest else 0 :: incRev base rest

/-- One full increment step on the digit list in source order
(most-significant digit first), i.e. the whole inner `for` loop of the
source. -/
def increment (base : Nat) (indices : List Nat) : List Nat :=
  (incRev base indices.reverse).reverse

/-- `"".join([input_charset[i] for i in indices])` of the source.  Python
indexing is totalized with a default character; every reachable index is in
range (see the digit-bound invariant below), so on reachable states this
agrees with the source. -/
def render (input_charset : List Char) (indices : List Nat) : List Char :=
  indices.map (fun i => input_charset.getD i '?')

/-- The main generation loop of the source: `num_patterns` times, render the
current digit state and then increment it. -/
def genLoop (input_charset : List Char) (base : Nat) : Nat → List Nat → List (List Char)
  | 0, _ => []
  | n + 1, indices =>
      render input_charset indices :: genLoop input_charset base n (increment base indices)

/-- `create_cyclic_pattern` with its diagnostic side channel made explicit:
the first component is the returned list of patterns, the second the list of
warning messages printed.  Mirrors the source line by line: the three
validation checks in order, then the generation loop started from the
all-zero digit state of length `pattern_length`. -/
def create_cyclic_pattern_full (input_charset : List Char) (num_patterns pattern_length : Int) :
    List (List Char) × List String :=
  if input_charset.isEmpty then ([], [emptyCharsetMsg])
  else if num_patterns ≤ 0 then ([], [nonPositiveCountMsg])
  else if pattern_length ≤ 0 then ([], [nonPositiveLengthMsg])
  else
    (genLoop input_charset input_charset.length num_patterns.toNat
      (List.replicate pattern_length.toNat 0), [])

/-- The return value of the source function `create_cyclic_pattern`. -/
def create_cyclic_pattern (input_charset : List Char) (num_patterns pattern_length : Int) :
    List (List Char) :=
  (create_cyclic_pattern_full input_charset num_patterns pattern_length).1

/-- Spec-side digit expansion: the `pattern_length` least-significant digits
of `k` in base `base`, least-significant first.  For `k < base ^ L` this is
exactly "`k` expressed in base `base` with `L` digits"; for larger `k` it
realizes the spec's silent wraparound (`k` is taken modulo `base ^ L`). -/
def toDigitsLSB (base : Nat) : Nat → Nat → List Nat
  | 0, _ => []
  | L + 1, k => k % base :: toDigitsLSB base L (k / base)

/-- Spec-side pattern formula: the integer `k` expressed in base
`input_charset.length` with exactly `pattern_length` digits, most-significant
digit first, each digit index mapped through `input_charset`. -/
def patternOf (input_charset : List Char) (pattern_length k : Nat) : List Char :=
  render input_charset (toDigitsLSB input_charset.length pattern_length k).reverse

/-- Value of a least-significant-first digit list. -/
def valLSB (base : Nat) : List Nat → Nat
  | [] => 0
  | d :: rest => d + base * valLSB base rest

/-! ### Digit-state traces at statement granularity

The inner carry loop of the source mutates `indices` in place: first
`indices[i] += 1`, then — if the new value reached `base` — `indices[i] = 0`.
`incScanTraceRev` records, least-significant digit first, every state the
array passes through during one scan, one entry per mutating statement:
the state right after each `+= 1`, and, when a carry happens, the state
right after the reset to `0`. -/

def incScanTraceRev (base : Nat) : List Nat → List (List Nat)
  | [] => []
  | d :: rest =>
    if d + 1 < base then [(d + 1) :: rest]
    else ((d + 1) :: rest) :: (0 :: rest) :: (incScanTraceRev base rest).map (fun s => 0 :: s)

/-- All states of the digit-index array over a whole generation run
(most-significant digit first, as in the source): for each of the `n`
iterations, the state at which the pattern is rendered followed by every
intermediate state of that iteration's increment-with-carry scan. -/
def genStates (base : Nat) : Nat → List Nat → List (List Nat)
  | 0, _ => []
  | n + 1, indices =>
      indices :: ((incScanTraceRev base indices.reverse).map List.reverse
        ++ genStates base n (increment base indices))

/-- The digit-index states traversed by `create_cyclic_pattern`, including
every intermediate state of each increment-with-carry scan (empty when
validation rejects the inputs, since no generation work happens). -/
def allDigitStates (input_charset : List Char) (num_patterns pattern_length : Int) :
    List (List Nat) :=
  if input_charset.isEmpty then []
  else if num_patterns ≤ 0 then []
  else if pattern_length ≤ 0 then []
  else genStates input_charset.length num_patterns.toNat
    (List.replicate pattern_length.toNat 0)

/-- Only the digit-index states at which a pattern is rendered (the state at
the top of each of the `n` iterations of the source's outer loop). -/
def renderStates (base : Nat) : Nat → List Nat → List (List Nat)
  | 0, _ => []
  | n + 1, indices => indices :: renderStates base n (increment base indices)

/-- The rendered digit-index states of `create_cyclic_pattern`. -/
def renderedDigitStates (input_charset : List Char) (num_patterns pattern_length : Int) :
    List (List Nat) :=
  if input_charset.isEmpty then []
  else if num_patterns ≤ 0 then []
  else if pattern_length ≤ 0 then []
  else renderStates input_charset.length num_patterns.toNat
    (List.replicate pattern_length.toNat 0)

/-! ### Basic structural lemmas -/

theorem incRev_length (base : Nat) (l : List Nat) : (incRev base l).length = l.length := by
  induction l with
  | nil => rfl
  | cons d rest ih =>
    simp only [incRev]
    split <;> simp [ih]

theorem increment_length (base : Nat) (l : List Nat) : (increment base l).length = l.length := by
  simp [increment, incRev_length]

theorem render_length (cs : List Char) (l : List Nat) : (render cs l).length = l.length := by
  simp [render]

theorem genLoop_length (cs : List Char) (base n : Nat) (idx : List Nat) :
    (genLoop cs base n idx).length = n := by
  induction n generalizing idx with
  | zero => rfl
  | succ n ih => simp [genLoop, ih]

theorem toDigitsLSB_length (base L k : Nat) : (toDigitsLSB base L k).length = L := by
  induction L generalizing k with
  | zero => rfl
  | succ L ih => simp [toDigitsLSB, ih]

theorem toDigitsLSB_lt (base : Nat) (hb : 0 < base) (L k : Nat) :
    ∀ d ∈ toDigitsLSB base L k, d < base := by
  induction L generalizing k with
  | zero => simp [toDigitsLSB]
  | succ L ih =>
    simp only [toDigitsLSB, List.mem_cons]
    rintro d (rfl | hd)
    · exact Nat.mod_lt _ hb
    · exact ih _ d hd

theorem toDigitsLSB_zero (base L : Nat) : toDigitsLSB base L 0 = List.replicate L 0 := by
  induction L with
  | zero => rfl
  | succ L ih => simp [toDigitsLSB, List.replicate_succ, ih]

theorem incRev_lt (base : Nat) (l : List Nat) (h : ∀ d ∈ l, d < base) :
    ∀ d ∈ incRev base l, d < base := by
  induction l with
  | nil => simp [incRev]
  | cons d rest ih =>
    have hd : d < base := h d (by simp)
    have hrest : ∀ x ∈ rest, x < base := fun x hx => h x (by simp [hx])
    simp only [incRev]
    split
    · rename_i hlt
      intro x hx
      rcases List.mem_cons.mp hx with rfl | hx
      · exact hlt
      · exact hrest x hx
    · rename_i hlt
      intro x hx
      rcases List.mem_cons.mp hx with rfl | hx
      · omega
      · exact ih hrest x hx

/-! ### Value of a digit list and correctness of the increment -/

theorem valLSB_toDigitsLSB (base : Nat) (L k : Nat) :
    valLSB base (toDigitsLSB base L k) = k % base ^ L := by
  induction L generalizing k with
  | zero => simp [toDigitsLSB, valLSB, Nat.mod_one]
  | succ L ih =>
    simp only [toDigitsLSB, valLSB, ih]
    rw [pow_succ, mul_comm (base ^ L) base, Nat.mod_mul]

theorem valLSB_lt (base : Nat) (l : List Nat) (h : ∀ d ∈ l, d < base) :
    valLSB base l < base ^ l.length := by
  induction l with
  | nil => simp [valLSB]
  | cons d rest ih =>
    have hd : d < base := h d (by simp)
    have hrest := ih (fun x hx => h x (by simp [hx]))
    simp only [valLSB, List.length_cons, pow_succ]
    calc d + base * valLSB base rest
        < base * (valLSB base rest + 1) := by rw [Nat.mul_succ]; omega
      _ ≤ base * base ^ rest.length := Nat.mul_le_mul_left base (by omega)
      _ = base ^ rest.length * base := by ring

theorem eq_of_valLSB_eq (base : Nat) (l₁ l₂ : List Nat)
    (h₁ : ∀ d ∈ l₁, d < base) (h₂ : ∀ d ∈ l₂, d < base)
    (hlen : l₁.length = l₂.length) (hval : valLSB base l₁ = valLSB base l₂) : l₁ = l₂ := by
  induction l₁ generalizing l₂ with
  | nil => cases l₂ with
    | nil => rfl
    | cons d rest => simp at hlen
  | cons d₁ rest₁ ih =>
    cases l₂ with
    | nil => simp at hlen
    | cons d₂ rest₂ =>
      have hd₁ : d₁ < base := h₁ d₁ (by simp)
      have hd₂ : d₂ < base := h₂ d₂ (by simp)
      have hmod : (d₁ + base * valLSB base rest₁) % base =
          (d₂ + base * valLSB base rest₂) % base := by
        simpa [valLSB] using congrArg (· % base) hval
      rw [Nat.add_mul_mod_self_left, Nat.add_mul_mod_self_left,
        Nat.mod_eq_of_lt hd₁, Nat.mod_eq_of_lt hd₂] at hmod
      subst hmod
      have hrest : valLSB base rest₁ = valLSB base rest₂ := by
        have hb : 0 < base := by omega
        have hmul : base * valLSB base rest₁ = base * valLSB base rest₂ := by
          simp only [valLSB] at hval
          omega
        exact Nat.eq_of_mul_eq_mul_left hb hmul
      have := ih rest₂ (fun x hx => h₁ x (by simp [hx]))
        (fun x hx => h₂ x (by simp [hx])) (by simpa using hlen) hrest
      rw [this]

theorem incRev_valLSB (base : Nat) (l : List Nat) (h : ∀ d ∈ l, d < base) :
    valLSB base (incRev base l) = (valLSB base l + 1) % base ^ l.length := by
  induction l with
  | nil => simp [incRev, valLSB]
  | cons d rest ih =>
    have hd : d < base := h d (by simp)
    have hrest : ∀ x ∈ rest, x < base := fun x hx => h x (by simp [hx])
    simp only [incRev, List.length_cons]
    split
    · rename_i hlt
      have hv := valLSB_lt base rest hrest
      have hsmall : d + base * valLSB base rest + 1 < base ^ (rest.length + 1) := by
        have h1 : d + base * valLSB base rest + 1 < base * (valLSB base rest + 1) := by
          rw [Nat.mul_succ]; omega
        have h2 : base * (valLSB base rest + 1) ≤ base * base ^ rest.length :=
          Nat.mul_le_mul_left base (by omega)
        have h3 : base * base ^ rest.length = base ^ (rest.length + 1) := by
          rw [pow_succ]; ring
        omega
      simp only [valLSB]
      rw [Nat.mod_eq_of_lt hsmall]
      omega
    · rename_i hlt
      have hdb : d + 1 = base := by omega
      simp only [valLSB, ih hrest]
      have hstep : d + base * valLSB base rest + 1 = base * (valLSB base rest + 1) := by
        rw [Nat.mul_succ]; omega
      rw [pow_succ, mul_comm (base ^ rest.length) base, hstep, Nat.mul_mod_mul_left]
      omega

theorem incRev_toDigitsLSB (base : Nat) (hb : 0 < base) (L k : Nat) :
    incRev base (toDigitsLSB base L k) = toDigitsLSB base L (k + 1) := by
  apply eq_of_valLSB_eq base
  · exact incRev_lt base _ (toDigitsLSB_lt base hb L k)
  · exact toDigitsLSB_lt base hb L (k + 1)
  · rw [incRev_length, toDigitsLSB_length, toDigitsLSB_length]
  · rw [incRev_valLSB base _ (toDigitsLSB_lt base hb L k), valLSB_toDigitsLSB,
      valLSB_toDigitsLSB, toDigitsLSB_length, Nat.mod_add_mod]

theorem increment_toDigitsLSB (base : Nat) (hb : 0 < base) (L k : Nat) :
    increment base (toDigitsLSB base L k).reverse = (toDigitsLSB base L (k + 1)).reverse := by
  simp [increment, incRev_toDigitsLSB base hb L k]

/-! ### The master lemma: the generation loop enumerates `patternOf` -/

theorem genLoop_eq_map_range (cs : List Char) (hb : 0 < cs.length) (L : Nat) :
    ∀ (n k : Nat), genLoop cs cs.length n (toDigitsLSB cs.length L k).reverse =
      (List.range n).map (fun j => patternOf cs L (k + j)) := by
  intro n
  induction n with
  | zero => intro k; rfl
  | succ n ih =>
    intro k
    simp only [genLoop, increment_toDigitsLSB cs.length hb L k, ih (k + 1),
      List.range_succ_eq_map, List.map_cons, List.map_map]
    congr 1
    apply List.map_congr_left
    intro a _
    simp only [Function.comp_apply, Nat.succ_eq_add_one]
    have harg : k + 1 + a = k + (a + 1) := by omega
    rw [harg]

theorem create_cyclic_pattern_eq_map_range (cs : List Char) (n L : Int)
    (hcs : cs ≠ []) (hn : 0 < n) (hL : 0 < L) :
    create_cyclic_pattern cs n L =
      (List.range n.toNat).map (fun k => patternOf cs L.toNat k) := by
  have hb : 0 < cs.length := List.length_pos.mpr hcs
  have hempty : cs.isEmpty = false := by
    cases cs with
    | nil => exact absurd rfl hcs
    | cons c rest => rfl
  unfold create_cyclic_pattern create_cyclic_pattern_full
  rw [hempty]
  simp only [Bool.false_eq_true, if_false, if_neg (by omega : ¬ n ≤ 0),
    if_neg (by omega : ¬ L ≤ 0)]
  have hzero : (List.replicate L.toNat 0 : List Nat) =
      (toDigitsLSB cs.length L.toNat 0).reverse := by
    rw [toDigitsLSB_zero, List.reverse_replicate]
  rw [hzero, genLoop_eq_map_range cs hb L.toNat n.toNat 0]
  simp

theorem incScanTraceRev_le (base : Nat) (l : List Nat) (h : ∀ d ∈ l, d < base) :
    ∀ s ∈ incScanTraceRev base l, ∀ e ∈ s, e ≤ base := by
  induction l with
  | nil => simp [incScanTraceRev]
  | cons d rest ih =>
    have hd : d < base := h d (by simp)
    have hrest : ∀ x ∈ rest, x < base := fun x hx => h x (by simp [hx])
    have hrest_le : ∀ x ∈ rest, x ≤ base := fun x hx => Nat.le_of_lt (hrest x hx)
    simp only [incScanTraceRev]
    split
    · intro s hs
      rcases List.mem_singleton.mp hs with rfl
      intro e he
      rcases List.mem_cons.mp he with rfl | he
      · omega
      · exact hrest_le e he
    · intro s hs
      rcases List.mem_cons.mp hs with rfl | hs
      · intro e he
        rcases List.mem_cons.mp he with rfl | he
        · omega
        · exact hrest_le e he
      rcases List.mem_cons.mp hs with rfl | hs
      · intro e he
        rcases List.mem_cons.mp he with rfl | he
        · omega
        · exact hrest_le e he
      · rcases List.mem_map.mp hs with ⟨s₀, hs₀, rfl⟩
        intro e he
        rcases List.mem_cons.mp he with rfl | he
        · omega
        · exact ih hrest s₀ hs₀ e he

theorem increment_lt (base : Nat) (l : List Nat) (h : ∀ d ∈ l, d < base) :
    ∀ d ∈ increment base l, d < base := by
  intro d hd
  rw [increment, List.mem_reverse] at hd
  exact incRev_lt base l.reverse (fun x hx => h x (List.mem_reverse.mp hx)) d hd

theorem genStates_le (base n : Nat) (idx : List Nat) (h : ∀ d ∈ idx, d < base) :
    ∀ s ∈ genStates base n idx, ∀ e ∈ s, e ≤ base := by
  induction n generalizing idx with
  | zero => simp [genStates]
  | succ n ih =>
    simp only [genStates]
    intro s hs
    rcases List.mem_cons.mp hs with rfl | hs
    · exact fun e he => Nat.le_of_lt (h e he)
    rcases List.mem_append.mp hs with hs | hs
    · rcases List.mem_map.mp hs with ⟨s₀, hs₀, rfl⟩
      intro e he
      exact incScanTraceRev_le base idx.reverse
        (fun x hx => h x (List.mem_reverse.mp hx)) s₀ hs₀ e (List.mem_reverse.mp he)
    · exact ih (increment base idx) (increment_lt base idx h) s hs

theorem renderStates_lt (base n : Nat) (idx : List Nat) (h : ∀ d ∈ idx, d < base) :
    ∀ s ∈ renderStates base n idx, ∀ e ∈ s, e < base := by
  induction n generalizing idx with
  | zero => simp [renderStates]
  | succ n ih =>
    simp only [renderStates]
    intro s hs
    rcases List.mem_cons.mp hs with rfl | hs
    · exact h
    · exact ih (increment base idx) (increment_lt base idx h) s hs

/-! ### Further helper lemmas -/

theorem render_mem (cs : List Char) (l : List Nat) (h : ∀ d ∈ l, d < cs.length) :
    ∀ c ∈ render cs l, c ∈ cs := by
  intro c hc
  rcases List.mem_map.mp hc with ⟨d, hd, rfl⟩
  have hdl : d < cs.length := h d hd
  rw [List.getD_eq_getElem cs '?' hdl]
  exact List.getElem_mem hdl

theorem patternOf_zero (cs : List Char) (L : Nat) (hcs : cs ≠ []) :
    patternOf cs L 0 = List.replicate L (cs.head hcs) := by
  rw [patternOf, toDigitsLSB_zero, List.reverse_replicate]
  cases cs with
  | nil => exact absurd rfl hcs
  | cons c rest =>
    simp [render, List.map_replicate, List.getD]

theorem toDigitsLSB_pow_self (base : Nat) (hb : 0 < base) (L : Nat) :
    toDigitsLSB base L (base ^ L) = toDigitsLSB base L 0 := by
  apply eq_of_valLSB_eq base _ _ (toDigitsLSB_lt base hb L _) (toDigitsLSB_lt base hb L 0)
  · rw [toDigitsLSB_length, toDigitsLSB_length]
  · rw [valLSB_toDigitsLSB, valLSB_toDigitsLSB, Nat.mod_self, Nat.zero_mod]

/-- Shared elementwise form of the master lemma: within bounds, the `k`-th
entry of the result is `patternOf` at `k`. -/
theorem create_cyclic_pattern_getElem (cs : List Char) (n L : Int)
    (hcs : cs ≠ []) (hn : 0 < n) (hL : 0 < L) (k : Nat) (hk : k < n.toNat) :
    (create_cyclic_pattern cs n L)[k]? = some (patternOf cs L.toNat k) := by
  rw [create_cyclic_pattern_eq_map_range cs n L hcs hn hL, List.getElem?_map,
    List.getElem?_range hk]
  rfl

/-! ### The claims -/

/-- C1: for every non-empty `input_charset`, `num_patterns > 0` and
`pattern_length > 0`, the `k`-th returned string (zero-indexed, `k <
num_patterns`) is the integer `k` expressed in base `input_charset.length`
with exactly `pattern_length` digits, most-significant digit first, each
digit index mapped through `input_charset` (`patternOf`; for `k ≥
base ^ pattern_length` the digits are those of `k` modulo
`base ^ pattern_length`, the spec's silent wraparound). -/
theorem c1_kth_pattern_is_base_representation (cs : List Char) (n L : Int)
    (hcs : cs ≠ []) (hn : 0 < n) (hL : 0 < L) (k : Nat) (hk : k < n.toNat) :
    (create_cyclic_pattern cs n L)[k]? = some (patternOf cs L.toNat k) :=
  create_cyclic_pattern_getElem cs n L hcs hn hL k hk

theorem c1_witness :
    (2 < ((5 : Int)).toNat) ∧
      (create_cyclic_pattern ['A', 'B'] 5 4)[2]? = some (patternOf ['A', 'B'] 4 2) :=
  ⟨by decide, c1_kth_pattern_is_base_representation ['A', 'B'] 5 4 (by decide) (by decide)
    (by decide) 2 (by decide)⟩

/-- C2: for every non-empty `input_charset`, `num_patterns > 0` and
`pattern_length > 0`, the result has exactly `num_patterns` entries, each of
length exactly `pattern_length`, and every character of every entry occurs in
`input_charset`. -/
theorem c2_result_shape (cs : List Char) (n L : Int)
    (hcs : cs ≠ []) (hn : 0 < n) (hL : 0 < L) :
    (create_cyclic_pattern cs n L).length = n.toNat ∧
      ∀ p ∈ create_cyclic_pattern cs n L, p.length = L.toNat ∧ ∀ c ∈ p, c ∈ cs := by
  have hb : 0 < cs.length := List.length_pos.mpr hcs
  rw [create_cyclic_pattern_eq_map_range cs n L hcs hn hL]
  refine ⟨by simp, ?_⟩
  intro p hp
  rcases List.mem_map.mp hp with ⟨k, _, rfl⟩
  constructor
  · rw [patternOf, render_length, List.length_reverse, toDigitsLSB_length]
  · apply render_mem
    intro d hd
    exact toDigitsLSB_lt cs.length hb L.toNat k d (List.mem_reverse.mp hd)

theorem c2_witness :
    (['0', '1', '2'] : List Char) ≠ [] ∧ (0 : Int) < 4 ∧ (0 : Int) < 2 ∧
      ((create_cyclic_pattern ['0', '1', '2'] 4 2).length = (4 : Int).toNat ∧
        ∀ p ∈ create_cyclic_pattern ['0', '1', '2'] 4 2,
          p.length = (2 : Int).toNat ∧ ∀ c ∈ p, c ∈ (['0', '1', '2'] : List Char)) :=
  ⟨by decide, by decide, by decide,
    c2_result_shape ['0', '1', '2'] 4 2 (by decide) (by decide) (by decide)⟩

/-- C3: for every non-empty `input_charset` and `pattern_length > 0`, if
`num_patterns > base ^ pattern_length` then the entry at index
`base ^ pattern_length` exists and equals the entry at index `0`: the
counter wraps to all zeros and the cycle restarts, with no error and no
early termination (both positions are present in the result). -/
theorem c3_wraparound (cs : List Char) (n L : Int)
    (hcs : cs ≠ []) (hL : 0 < L) (hn : ((cs.length ^ L.toNat : Nat) : Int) < n) :
    (create_cyclic_pattern cs n L)[(cs.length ^ L.toNat : Nat)]? =
        some (patternOf cs L.toNat 0) ∧
      (create_cyclic_pattern cs n L)[0]? = some (patternOf cs L.toNat 0) := by
  have hb : 0 < cs.length := List.length_pos.mpr hcs
  have hpow : 0 < cs.length ^ L.toNat := Nat.pos_pow_of_pos _ hb
  have hn0 : 0 < n := by omega
  have hklt : cs.length ^ L.toNat < n.toNat := by omega
  constructor
  · rw [create_cyclic_pattern_getElem cs n L hcs hn0 hL _ hklt]
    rw [patternOf, patternOf, toDigitsLSB_pow_self cs.length hb L.toNat]
  · exact create_cyclic_pattern_getElem cs n L hcs hn0 hL 0 (by omega)

theorem c3_witness :
    (['A', 'B'] : List Char) ≠ [] ∧ (0 : Int) < 2 ∧
      (((((['A', 'B'] : List Char).length ^ (2 : Int).toNat : Nat)) : Int) < 5) ∧
      ((create_cyclic_pattern ['A', 'B'] 5 2)[((['A', 'B'] : List Char).length ^ (2 : Int).toNat : Nat)]? =
          some (patternOf ['A', 'B'] (2 : Int).toNat 0) ∧
        (create_cyclic_pattern ['A', 'B'] 5 2)[0]? = some (patternOf ['A', 'B'] (2 : Int).toNat 0)) :=
  ⟨by decide, by decide, by decide, c3_wraparound ['A', 'B'] 5 2 (by decide) (by decide) (by decide)⟩

/-- C4: whenever `input_charset` is empty, or `num_patterns ≤ 0`, or
`pattern_length ≤ 0`, the function returns the empty list (never a partially
populated one) together with a non-empty diagnostic, and (being a total Lean
function) raises no exception. -/
theorem c4_validation_soft_fail (cs : List Char) (n L : Int)
    (h : cs = [] ∨ n ≤ 0 ∨ L ≤ 0) :
    (create_cyclic_pattern_full cs n L).1 = [] ∧
      (create_cyclic_pattern_full cs n L).2 ≠ [] := by
  unfold create_cyclic_pattern_full
  split_ifs with h1 h2 h3
  · exact ⟨rfl, by simp⟩
  · exact ⟨rfl, by simp⟩
  · exact ⟨rfl, by simp⟩
  · exfalso
    rcases h with rfl | h | h
    · simp at h1
    · exact h2 h
    · exact h3 h

theorem c4_witness :
    ((['A', 'B'] : List Char) = [] ∨ (-3 : Int) ≤ 0 ∨ (2 : Int) ≤ 0) ∧
      ((create_cyclic_pattern_full ['A', 'B'] (-3) 2).1 = [] ∧
        (create_cyclic_pattern_full ['A', 'B'] (-3) 2).2 ≠ []) :=
  ⟨by decide, c4_validation_soft_fail ['A', 'B'] (-3) 2 (by decide)⟩

/-- C5: for every non-empty `input_charset`, `num_patterns > 0` and
`pattern_length > 0`, the first returned string is the first character of
`input_charset` repeated `pattern_length` times. -/
theorem c5_first_pattern (cs : List Char) (n L : Int)
    (hcs : cs ≠ []) (hn : 0 < n) (hL : 0 < L) :
    (create_cyclic_pattern cs n L)[0]? = some (List.replicate L.toNat (cs.head hcs)) := by
  rw [create_cyclic_pattern_getElem cs n L hcs hn hL 0 (by omega),
    patternOf_zero cs L.toNat hcs]

theorem c5_witness :
    (create_cyclic_pattern ['X', 'Y', 'Z'] 3 4)[0]? =
      some (List.replicate (4 : Int).toNat ((['X', 'Y', 'Z'] : List Char).head (by decide))) :=
  c5_first_pattern ['X', 'Y', 'Z'] 3 4 (by decide) (by decide) (by decide)

/-- C7: the three validations are checked in the fixed order alphabet
emptiness, then pattern count, then pattern length, and the first failing
check short-circuits with exactly its own diagnostic: an empty alphabet
yields the empty-alphabet message regardless of the other arguments; a
non-empty alphabet with `num_patterns ≤ 0` yields the non-positive-count
message regardless of `pattern_length`; and only when both earlier checks
pass does `pattern_length ≤ 0` yield the non-positive-length message. -/
theorem c7_validation_order (cs : List Char) (n L : Int) :
    (cs = [] → create_cyclic_pattern_full cs n L = ([], [emptyCharsetMsg])) ∧
      (cs ≠ [] → n ≤ 0 → create_cyclic_pattern_full cs n L = ([], [nonPositiveCountMsg])) ∧
      (cs ≠ [] → 0 < n → L ≤ 0 →
        create_cyclic_pattern_full cs n L = ([], [nonPositiveLengthMsg])) := by
  refine ⟨?_, ?_, ?_⟩
  · rintro rfl
    rfl
  · intro hcs hn
    have hempty : cs.isEmpty = false := by
      cases cs with
      | nil => exact absurd rfl hcs
      | cons c rest => rfl
    unfold create_cyclic_pattern_full
    rw [hempty]
    simp [hn]
  · intro hcs hn hL
    have hempty : cs.isEmpty = false := by
      cases cs with
      | nil => exact absurd rfl hcs
      | cons c rest => rfl
    unfold create_cyclic_pattern_full
    rw [hempty]
    have hns : ¬ n ≤ 0 := by omega
    simp [hL, hns]

theorem c7_witness :
    create_cyclic_pattern_full [] 3 2 = ([], [emptyCharsetMsg]) ∧
      create_cyclic_pattern_full ['A', 'B'] 0 2 = ([], [nonPositiveCountMsg]) ∧
      create_cyclic_pattern_full ['A', 'B'] 3 0 = ([], [nonPositiveLengthMsg]) :=
  ⟨(c7_validation_order [] 3 2).1 rfl,
    (c7_validation_order ['A', 'B'] 0 2).2.1 (by decide) (by decide),
    (c7_validation_order ['A', 'B'] 3 0).2.2 (by decide) (by decide) (by decide)⟩

/-- C8: the function is deterministic and pure in its result — equal
argument triples give equal results (patterns and diagnostics alike), the
result depends on nothing but the three arguments (it is a closed Lean
function of them), and it terminates on all inputs with an output of at most
`num_patterns` entries (the embedding is a total, structurally recursive
function). -/
theorem c8_deterministic (cs₁ cs₂ : List Char) (n₁ n₂ L₁ L₂ : Int)
    (hcs : cs₁ = cs₂) (hn : n₁ = n₂) (hL : L₁ = L₂) :
    create_cyclic_pattern_full cs₁ n₁ L₁ = create_cyclic_pattern_full cs₂ n₂ L₂ ∧
      (create_cyclic_pattern cs₁ n₁ L₁).length ≤ n₁.toNat := by
  subst hcs hn hL
  refine ⟨rfl, ?_⟩
  unfold create_cyclic_pattern create_cyclic_pattern_full
  split_ifs <;> simp [genLoop_length]

theorem c8_witness :
    create_cyclic_pattern_full ['A', 'B'] 3 2 = create_cyclic_pattern_full ['A', 'B'] 3 2 ∧
      (create_cyclic_pattern ['A', 'B'] 3 2).length ≤ (3 : Int).toNat :=
  c8_deterministic ['A', 'B'] ['A', 'B'] 3 3 2 2 rfl rfl rfl

/-- C9 (implicit): prefix monotonicity — for `0 < n ≤ m`, generating `n`
patterns yields exactly the first `n` entries of the list obtained by
generating `m` patterns with the same alphabet and length. -/
theorem c9_take_agrees (cs : List Char) (n m L : Int)
    (hcs : cs ≠ []) (hL : 0 < L) (hn : 0 < n) (hnm : n ≤ m) :
    create_cyclic_pattern cs n L = (create_cyclic_pattern cs m L).take n.toNat := by
  have hm : 0 < m := lt_of_lt_of_le hn hnm
  have hle : n.toNat ≤ m.toNat := by omega
  rw [create_cyclic_pattern_eq_map_range cs n L hcs hn hL,
    create_cyclic_pattern_eq_map_range cs m L hcs hm hL,
    ← List.map_take, List.take_range, Nat.min_eq_left hle]

theorem c9_witness :
    create_cyclic_pattern ['0', '1'] 3 2 = (create_cyclic_pattern ['0', '1'] 7 2).take (3 : Int).toNat :=
  c9_take_agrees ['0', '1'] 3 7 2 (by decide) (by decide) (by decide) (by decide)

/-- C6, counterexample: the claim fails at statement granularity.  With
alphabet `['A']` (`base = 1`), two patterns of length one, the scan of the
first increment executes `indices[0] += 1`, and the array state right after
that statement — before the reset — is `[1]`, whose entry violates
`e < base = 1`.  (Re-trace of the source: `indices = [0]`, render `"A"`,
then `indices[0] += 1` gives `[1]`, `1 < 1` fails, so `indices[0] = 0`.) -/
theorem c6_counterexample :
    [1] ∈ allDigitStates ['A'] 2 1 ∧ (1 : Nat) ∈ ([1] : List Nat) ∧
      ¬ (1 < (['A'] : List Char).length) := by decide

/-- C6, amended: at every state at which a pattern is rendered every entry
of the digit-index array satisfies `0 ≤ e < base`; at the intermediate
states of the increment-with-carry scan every entry satisfies `0 ≤ e ≤
base` — an entry can transiently equal `base` right after its `+= 1` and
before its reset, but never exceeds it. -/
theorem c6_amended_digit_bounds (cs : List Char) (n L : Int)
    (hcs : cs ≠ []) (hn : 0 < n) (hL : 0 < L) :
    (∀ s ∈ allDigitStates cs n L, ∀ e ∈ s, e ≤ cs.length) ∧
      (∀ s ∈ renderedDigitStates cs n L, ∀ e ∈ s, e < cs.length) := by
  have hb : 0 < cs.length := List.length_pos.mpr hcs
  have hempty : cs.isEmpty = false := by
    cases cs with
    | nil => exact absurd rfl hcs
    | cons c rest => rfl
  have hzero : ∀ d ∈ List.replicate L.toNat (0 : Nat), d < cs.length := by
    intro d hd
    rw [List.eq_of_mem_replicate hd]
    exact hb
  have hns : ¬ n ≤ 0 := by omega
  have hLs : ¬ L ≤ 0 := by omega
  constructor
  · unfold allDigitStates
    rw [hempty]
    simp only [Bool.false_eq_true, if_false, if_neg hns, if_neg hLs]
    exact genStates_le cs.length n.toNat _ hzero
  · unfold renderedDigitStates
    rw [hempty]
    simp only [Bool.false_eq_true, if_false, if_neg hns, if_neg hLs]
    exact renderStates_lt cs.length n.toNat _ hzero

theorem c6_witness :
    (∀ s ∈ allDigitStates ['A', 'B'] 3 2, ∀ e ∈ s, e ≤ (['A', 'B'] : List Char).length) ∧
      (∀ s ∈ renderedDigitStates ['A', 'B'] 3 2, ∀ e ∈ s, e < (['A', 'B'] : List Char).length) :=
  c6_amended_digit_bounds ['A', 'B'] 3 2 (by decide) (by decide) (by decide)

theorem map_getD_inj (cs : List Char) (hnd : cs.Nodup) :
    ∀ l₁ l₂ : List Nat, (∀ d ∈ l₁, d < cs.length) → (∀ d ∈ l₂, d < cs.length) →
      l₁.map (fun i => cs.getD i '?') = l₂.map (fun i => cs.getD i '?') → l₁ = l₂ := by
  intro l₁
  induction l₁ with
  | nil =>
    intro l₂ _ _ hmap
    cases l₂ with
    | nil => rfl
    | cons d rest => simp at hmap
  | cons d₁ rest₁ ih =>
    intro l₂ h₁ h₂ hmap
    cases l₂ with
    | nil => simp at hmap
    | cons d₂ rest₂ =>
      simp only [List.map_cons, List.cons.injEq] at hmap
      have hd₁ : d₁ < cs.length := h₁ d₁ (by simp)
      have hd₂ : d₂ < cs.length := h₂ d₂ (by simp)
      have hdd : d₁ = d₂ := by
        have hget : cs[d₁] = cs[d₂] := by
          rw [← List.getD_eq_getElem cs '?' hd₁, ← List.getD_eq_getElem cs '?' hd₂]
          exact hmap.1
        exact (List.Nodup.getElem_inj_iff hnd).mp hget
      have hrest := ih rest₂ (fun x hx => h₁ x (by simp [hx]))
        (fun x hx => h₂ x (by simp [hx])) hmap.2
      rw [hdd, hrest]

theorem patternOf_inj (cs : List Char) (hnd : cs.Nodup) (hb : 0 < cs.length)
    (L k₁ k₂ : Nat) (h₁ : k₁ < cs.length ^ L) (h₂ : k₂ < cs.length ^ L)
    (heq : patternOf cs L k₁ = patternOf cs L k₂) : k₁ = k₂ := by
  have hdig : toDigitsLSB cs.length L k₁ = toDigitsLSB cs.length L k₂ := by
    apply map_getD_inj cs hnd _ _ (toDigitsLSB_lt cs.length hb L k₁)
      (toDigitsLSB_lt cs.length hb L k₂)
    have := heq
    rw [patternOf, patternOf, render, render, List.map_reverse, List.map_reverse,
      List.reverse_inj] at this
    exact this
  have hval := congrArg (valLSB cs.length) hdig
  rw [valLSB_toDigitsLSB, valLSB_toDigitsLSB, Nat.mod_eq_of_lt h₁,
    Nat.mod_eq_of_lt h₂] at hval
  exact hval

/-- C10 (implicit): within one cycle the generated strings are pairwise
distinct — for an alphabet of pairwise-distinct characters, `pattern_length
> 0`, and `0 < num_patterns ≤ base ^ pattern_length`, the returned list has
no duplicates. -/
theorem c10_pairwise_distinct (cs : List Char) (n L : Int)
    (hnd : cs.Nodup) (hcs : cs ≠ []) (hn : 0 < n) (hL : 0 < L)
    (hub : n ≤ ((cs.length ^ L.toNat : Nat) : Int)) :
    (create_cyclic_pattern cs n L).Nodup := by
  have hb : 0 < cs.length := List.length_pos.mpr hcs
  rw [create_cyclic_pattern_eq_map_range cs n L hcs hn hL]
  refine List.Nodup.map_on ?_ (List.nodup_range n.toNat)
  intro k₁ h₁ k₂ h₂ heq
  have hk₁ : k₁ < cs.length ^ L.toNat := by
    have := List.mem_range.mp h₁
    omega
  have hk₂ : k₂ < cs.length ^ L.toNat := by
    have := List.mem_range.mp h₂
    omega
  exact patternOf_inj cs hnd hb L.toNat k₁ k₂ hk₁ hk₂ heq

theorem c10_witness : (create_cyclic_pattern ['A', 'B'] 4 2).Nodup :=
  c10_pairwise_distinct ['A', 'B'] 4 2 (by decide) (by decide) (by decide) (by decide)
    (by decide)

-- Sanity checks against the concrete scenarios of the spec (section 8).
example : create_cyclic_pattern ['A', 'B'] 5 4 =
    [['A','A','A','A'], ['A','A','A','B'], ['A','A','B','A'], ['A','A','B','B'],
     ['A','B','A','A']] := by decide

example : create_cyclic_pattern ['0', '1', '2'] 4 2 =
    [['0','0'], ['0','1'], ['0','2'], ['1','0']] := by decide

example : create_cyclic_pattern [] 3 2 = [] := by decide

example : create_cyclic_pattern ['A', 'B'] 0 2 = [] := by decide

example : create_cyclic_pattern ['A', 'B'] 3 0 = [] := by decide

example : create_cyclic_pattern ['0', '1'] 8 4 =
    [['0','0','0','0'], ['0','0','0','1'], ['0','0','1','0'], ['0','0','1','1'],
     ['0','1','0','0'], ['0','1','0','1'], ['0','1','1','0'], ['0','1','1','1']] := by decide
